import Mathlib

/-!
# Verification of the court-case tracker core (src/src/App.js)

Shallow embedding of the data model and operations of the single-file React
application `src/src/App.js`.  Modelling conventions:

* The app's collection `cases` is a `List Case`; React `setCases` updates are
  modelled as functions from the old list to the new list.
* JavaScript `Date` values are modelled at a fixed UTC runtime (offset 0):
  `new Date("YYYY-MM-DD")` parses to UTC midnight of that civil date, so
  `setHours(0,0,0,0)` is the identity on such values and `getMonth`,
  `setMonth`, `toISOString` all agree with the UTC calendar.  Instants are
  integers (milliseconds since the epoch); civil dates are counted in days
  since 1970-01-01 (Hinnant's civil-from-days / days-from-civil algorithms).
* An invalid date string parses to `none` (JS `NaN` date): comparisons against
  it are `false`, and `toISOString` on it throws, which is modelled by the
  surrounding operation returning `none`.
* `Date.now()` and `new Date().toISOString()` are clock reads; operations that
  read the clock take them as explicit parameters (`nowMs`, `nowIso`).
* JS string case-folding (`toLowerCase`) is modelled by `String.toLower`
  (ASCII folding; all data in the claims is ASCII).
* `Array.prototype.sort` with a numeric comparator is stable (ES2019); it is
  modelled by `List.insertionSort`, which is stable.
-/

namespace Court

/-! ## Calendar arithmetic (JS `Date` at UTC) -/

/-- Gregorian leap year. -/
def isLeap (y : Int) : Bool := (y % 4 == 0 && y % 100 != 0) || y % 400 == 0

/-- Number of days in month `m` (1–12) of year `y`. -/
def daysInMonth (y m : Int) : Int :=
  if m == 2 then (if isLeap y then 29 else 28)
  else if m == 4 || m == 6 || m == 9 || m == 11 then 30
  else 31

/-- Days since 1970-01-01 of the civil date `(y, m, d)` (Hinnant's
`days_from_civil`). -/
def daysFromCivil (y m d : Int) : Int :=
  let y := if m ≤ 2 then y - 1 else y
  let era := y.fdiv 400
  let yoe := y - era * 400
  let mp := (m + 9) % 12
  let doy := (153 * mp + 2).fdiv 5 + d - 1
  let doe := yoe * 365 + yoe.fdiv 4 - yoe.fdiv 100 + doy
  era * 146097 + doe - 719468

/-- Civil date `(y, m, d)` of the day `z` days after 1970-01-01 (Hinnant's
`civil_from_days`). -/
def civilFromDays (z : Int) : Int × Int × Int :=
  let z := z + 719468
  let era := z.fdiv 146097
  let doe := z - era * 146097
  let yoe := (doe - doe.fdiv 1460 + doe.fdiv 36524 - doe.fdiv 146096).fdiv 365
  let y := yoe + era * 400
  let doy := doe - (365 * yoe + yoe.fdiv 4 - yoe.fdiv 100)
  let mp := (5 * doy + 2).fdiv 153
  let d := doy - (153 * mp + 2).fdiv 5 + 1
  let m := mp + (if mp < 10 then 3 else -9)
  (if m ≤ 2 then y + 1 else y, m, d)

/-- Value of a decimal digit character, junk for other characters. -/
def digVal (c : Char) : Nat := c.toNat - 48

/-- Is `c` a decimal digit? -/
def isDig (c : Char) : Bool := 48 ≤ c.toNat && c.toNat ≤ 57

/-- The decimal digit character for `d` (0–9). -/
def digitChar (d : Nat) : Char := Char.ofNat (48 + d)

/-- Parse a hearing-date string of the canonical form `YYYY-MM-DD` that the
app's date input and `toISOString` produce, validating the calendar date the
way JS ISO-format `Date` parsing does; any other string is an invalid date
(`none`, JS `NaN`). -/
def parseIsoDate (s : String) : Option (Int × Int × Int) :=
  match s.data with
  | [y1, y2, y3, y4, '-', m1, m2, '-', d1, d2] =>
    if isDig y1 && isDig y2 && isDig y3 && isDig y4 &&
       isDig m1 && isDig m2 && isDig d1 && isDig d2 then
      let y : Int := (((digVal y1 * 10 + digVal y2) * 10 + digVal y3) * 10 + digVal y4 : Nat)
      let m : Int := (digVal m1 * 10 + digVal m2 : Nat)
      let d : Int := (digVal d1 * 10 + digVal d2 : Nat)
      if 1 ≤ m && m ≤ 12 && 1 ≤ d && d ≤ daysInMonth y m then some (y, m, d) else none
    else none
  | _ => none

/-- Epoch-day number of a hearing-date string: `new Date(s)` is midnight UTC
of this day. -/
def hearingDay (s : String) : Option Int :=
  (parseIsoDate s).map fun ymd => daysFromCivil ymd.1 ymd.2.1 ymd.2.2

/-- Zero-pad a nonnegative integer to `w` decimal digit characters. -/
def padNat (w : Nat) (n : Int) : List Char :=
  (List.range w).reverse.map fun i => digitChar ((n.fdiv (10 ^ i : Nat)) % 10).toNat

/-- The `YYYY-MM-DD` part of `toISOString` for UTC midnight of epoch day `z`
(years of the claims all lie in 0–9999, where `toISOString` uses the
four-digit year form). -/
def formatDate (z : Int) : String :=
  let ymd := civilFromDays z
  ⟨padNat 4 ymd.1 ++ '-' :: padNat 2 ymd.2.1 ++ '-' :: padNat 2 ymd.2.2⟩

/-- `Math.ceil (a / b)` for an integer number `a` of milliseconds and a
positive divisor `b`. -/
def ceilDiv (a b : Int) : Int := -((-a).fdiv b)

/-- One day in milliseconds. -/
def msPerDay : Int := 86400000

/-! ## Data model -/

/-- The sole entity of the app: one tracked court case, with the fields built
in `handleSubmit` (`{ id, ...formData, createdAt }`). -/
structure Case where
  id : Int
  caseNumber : String
  courtName : String
  caseType : String
  clientName : String
  opponentName : String
  hearingDate : String
  caseStatus : String
  notes : String
  createdAt : String
deriving DecidableEq, Repr

/-- The form state `formData` feeding `handleSubmit`. -/
structure FormData where
  caseNumber : String
  courtName : String
  caseType : String
  clientName : String
  opponentName : String
  hearingDate : String
  caseStatus : String
  notes : String
deriving DecidableEq, Repr

/-! ## Mutation operations -/

/-- The required-field validation of `handleSubmit`: a JS string is falsy
exactly when it is empty. -/
def requiredMissing (f : FormData) : Bool :=
  f.caseNumber == "" || f.courtName == "" || f.clientName == "" || f.hearingDate == ""

/-- The `newCase` object built by `handleSubmit`: `id = Date.now()`, the
spread of `formData`, and `createdAt = new Date().toISOString()`. -/
def newCaseFrom (f : FormData) (nowMs : Int) (nowIso : String) : Case :=
  { id := nowMs, caseNumber := f.caseNumber, courtName := f.courtName,
    caseType := f.caseType, clientName := f.clientName,
    opponentName := f.opponentName, hearingDate := f.hearingDate,
    caseStatus := f.caseStatus, notes := f.notes, createdAt := nowIso }

/-- `handleSubmit`: validates the four required fields; on failure alerts and
returns without touching `cases` (second component `false`); on success
appends the new case (second component `true`). -/
def handleSubmit (f : FormData) (cs : List Case) (nowMs : Int) (nowIso : String) :
    List Case × Bool :=
  if requiredMissing f then (cs, false)
  else (cs ++ [newCaseFrom f nowMs nowIso], true)

/-- The per-case transform of `moveToNextHearing`: parse the hearing date,
`setMonth(getMonth() + 1)` with JS day-overflow rollover, format with
`toISOString`, and force the status to `"Adjourned"`.  An invalid hearing
date makes `toISOString` throw, modelled by `none`. -/
def advanceCase (c : Case) : Option Case :=
  (parseIsoDate c.hearingDate).map fun ymd =>
    let m0 := (ymd.2.1 - 1) + 1
    let y := ymd.1 + m0.fdiv 12
    let m := m0 % 12
    let day := daysFromCivil y (m + 1) 1 + (ymd.2.2 - 1)
    { c with hearingDate := formatDate day, caseStatus := "Adjourned" }

/-- `moveToNextHearing(caseId)`: maps over `cases`, replacing every case whose
`id` matches; a throw from the transform aborts the whole update (`none`). -/
def moveToNextHearing (caseId : Int) : List Case → Option (List Case)
  | [] => some []
  | c :: rest =>
    if c.id = caseId then
      (advanceCase c).bind fun c' => (moveToNextHearing caseId rest).map (c' :: ·)
    else
      (moveToNextHearing caseId rest).map (c :: ·)

/-- `deleteCase(caseId)`: after the `window.confirm` check (a presentation
concern, passed in as `confirmed`), keeps exactly the cases whose id differs. -/
def deleteCase (confirmed : Bool) (caseId : Int) (cs : List Case) : List Case :=
  if confirmed then cs.filter (fun c => c.id != caseId) else cs

/-! ## Derived views -/

/-- Sort key of the upcoming-hearings comparator
`new Date(a.hearingDate) - new Date(b.hearingDate)`; the default is irrelevant
because every case reaching the sort passed the validity-implying filter. -/
def hearingKey (c : Case) : Int := (hearingDay c.hearingDate).getD 0

/-- The comparator order of `getUpcomingHearings`' sort. -/
def byDate (a b : Case) : Prop := hearingKey a ≤ hearingKey b

instance : DecidableRel byDate := fun a b =>
  inferInstanceAs (Decidable (hearingKey a ≤ hearingKey b))

instance : IsTotal Case byDate := ⟨fun a b => le_total (hearingKey a) (hearingKey b)⟩

instance : IsTrans Case byDate := ⟨fun _ _ _ => le_trans⟩

/-- The filter predicate of `getUpcomingHearings`: hearing date (already
midnight) on or after today's midnight; an invalid date compares `false`. -/
def keepUpcoming (todayDay : Int) (c : Case) : Bool :=
  match hearingDay c.hearingDate with
  | none => false
  | some h => todayDay ≤ h

/-- `getUpcomingHearings`: filter to hearing dates on or after today's
midnight, then stable-sort ascending by hearing date. -/
def getUpcomingHearings (nowMs : Int) (cs : List Case) : List Case :=
  List.insertionSort byDate (cs.filter (keepUpcoming (nowMs.fdiv msPerDay)))

/-- `isWithin7Days(hearingDate)`: day difference via
`Math.ceil((hearing - today) / 86400000)`, urgent when it lies in `[0, 7]`. -/
def isWithin7Days (hearingDate : String) (nowMs : Int) : Bool :=
  let todayMs := nowMs.fdiv msPerDay * msPerDay
  match hearingDay hearingDate with
  | none => false
  | some h =>
    let diffTime := h * msPerDay - todayMs
    let diffDays := ceilDiv diffTime msPerDay
    0 ≤ diffDays && diffDays ≤ 7

/-- Does `hay` contain `needle` starting at its head (`String.prototype`
prefix test used by `containsStr`)? -/
def leadsWith : List Char → List Char → Bool
  | [], _ => true
  | _ :: _, [] => false
  | a :: as, b :: bs => a == b && leadsWith as bs

/-- JS `hay.includes(needle)` on char lists. -/
def hasSub (needle : List Char) : List Char → Bool
  | [] => needle.isEmpty
  | b :: bs => leadsWith needle (b :: bs) || hasSub needle bs

/-- JS `hay.includes(needle)`. -/
def containsStr (hay needle : String) : Bool := hasSub needle.data hay.data

/-- The filter predicate of `getFilteredCases`. -/
def matchesFilters (searchTerm filterCourt filterCaseType : String) (c : Case) : Bool :=
  (searchTerm == "" || containsStr c.caseNumber.toLower searchTerm.toLower
    || containsStr c.clientName.toLower searchTerm.toLower)
  && (filterCourt == "" || c.courtName == filterCourt)
  && (filterCaseType == "" || c.caseType == filterCaseType)

/-- `getFilteredCases`. -/
def getFilteredCases (searchTerm filterCourt filterCaseType : String)
    (cs : List Case) : List Case :=
  cs.filter (matchesFilters searchTerm filterCourt filterCaseType)

/-! ## Persistence adapter (`localStorage` + `JSON.stringify`/`JSON.parse`)

`saveCasesToStorage` serializes the collection with `JSON.stringify` and
stores it under the fixed key; `loadCasesFromStorage` reads that key, treats
an absent/empty value as no data, and parses.  `JSON.stringify` is embedded
exactly (insertion-order keys, no whitespace, QuoteJSONString escaping);
`JSON.parse` is embedded on the grammar `JSON.stringify` emits for a case
collection, which is all the save-then-load round trip exercises.  A parse
failure models the caught exception (collection left in its initial empty
state). -/

/-- Lower-case hex digit character for `n` in 0–15 (as in `\u00XX` output). -/
def hexDigitChar (n : Nat) : Char :=
  if n < 10 then Char.ofNat (48 + n) else Char.ofNat (87 + n)

/-- Numeric value of a hex digit character of a `\uXXXX` escape. -/
def hexVal (c : Char) : Option Nat :=
  if 48 ≤ c.toNat && c.toNat ≤ 57 then some (c.toNat - 48)
  else if 97 ≤ c.toNat && c.toNat ≤ 102 then some (c.toNat - 87)
  else if 65 ≤ c.toNat && c.toNat ≤ 70 then some (c.toNat - 55)
  else none

/-- `JSON.stringify`'s QuoteJSONString escaping of one character: `"` and
`\` are backslash-escaped, the five short control escapes are used, other
control characters become `\u00XX`, everything else is emitted literally. -/
def escapeChar (c : Char) : List Char :=
  if c = '"' then ['\\', '"']
  else if c = '\\' then ['\\', '\\']
  else if c = '\x08' then ['\\', 'b']
  else if c = '\t' then ['\\', 't']
  else if c = '\n' then ['\\', 'n']
  else if c = '\x0c' then ['\\', 'f']
  else if c = '\r' then ['\\', 'r']
  else if c.toNat < 32 then
    ['\\', 'u', '0', '0', hexDigitChar (c.toNat / 16), hexDigitChar (c.toNat % 16)]
  else [c]

/-- Escape every character of a string body. -/
def escapeL : List Char → List Char
  | [] => []
  | c :: t => escapeChar c ++ escapeL t

/-- A serialized JSON string literal. -/
def encStr (s : String) : List Char := '"' :: (escapeL s.data ++ ['"'])

/-- Decimal digits of a natural number, most significant first. -/
def encNat (n : Nat) : List Char :=
  if n = 0 then ['0'] else (Nat.digits 10 n).reverse.map digitChar

/-- A serialized JSON integer. -/
def encInt (i : Int) : List Char :=
  if i < 0 then '-' :: encNat (-i).toNat else encNat i.toNat

/-- The opening of a serialized case object up to its first value:
`{"id":`. -/
def objStart : List Char := ['\x7b', '"', 'i', 'd', '"', ':']

/-- The closing brace of a serialized case object. -/
def objEnd : List Char := ['\x7d']

/-- The separator-plus-key text `,"<name>":` between two members. -/
def keyPre (name : String) : List Char :=
  ',' :: '"' :: (name.data ++ ('"' :: ':' :: []))

/-- One case as `JSON.stringify` emits it: keys in insertion order
(`{ id, ...formData, createdAt }`), no whitespace. -/
def encObj (c : Case) : List Char :=
  objStart ++ encInt c.id ++
  keyPre "caseNumber" ++ encStr c.caseNumber ++
  keyPre "courtName" ++ encStr c.courtName ++
  keyPre "caseType" ++ encStr c.caseType ++
  keyPre "clientName" ++ encStr c.clientName ++
  keyPre "opponentName" ++ encStr c.opponentName ++
  keyPre "hearingDate" ++ encStr c.hearingDate ++
  keyPre "caseStatus" ++ encStr c.caseStatus ++
  keyPre "notes" ++ encStr c.notes ++
  keyPre "createdAt" ++ encStr c.createdAt ++ objEnd

/-- The elements of the serialized array after its opening bracket. -/
def encItems : List Case → List Char
  | [] => [']']
  | [c] => encObj c ++ [']']
  | c :: c2 :: t => encObj c ++ (',' :: encItems (c2 :: t))

/-- `JSON.stringify(cases)`. -/
def stringifyCases (cs : List Case) : String := ⟨'[' :: encItems cs⟩

/-- Drop the exact prefix `p` from `l`. -/
def stripP : List Char → List Char → Option (List Char)
  | [], l => some l
  | _ :: _, [] => none
  | p :: ps, c :: cs => if p = c then stripP ps cs else none

/-- Decode a JSON string body (after the opening quote) up to and including
its closing quote, returning the decoded characters and the rest of the
input. -/
def decodeStr : List Char → Option (List Char × List Char)
  | [] => none
  | c :: rest =>
    if c = '"' then some ([], rest)
    else if c = '\\' then
      match rest with
      | [] => none
      | e :: rest2 =>
        if e = '"' then (decodeStr rest2).map fun p => ('"' :: p.1, p.2)
        else if e = '\\' then (decodeStr rest2).map fun p => ('\\' :: p.1, p.2)
        else if e = 'b' then (decodeStr rest2).map fun p => ('\x08' :: p.1, p.2)
        else if e = 't' then (decodeStr rest2).map fun p => ('\t' :: p.1, p.2)
        else if e = 'n' then (decodeStr rest2).map fun p => ('\n' :: p.1, p.2)
        else if e = 'f' then (decodeStr rest2).map fun p => ('\x0c' :: p.1, p.2)
        else if e = 'r' then (decodeStr rest2).map fun p => ('\r' :: p.1, p.2)
        else if e = 'u' then
          match rest2 with
          | h1 :: h2 :: h3 :: h4 :: rest3 =>
            match hexVal h1, hexVal h2, hexVal h3, hexVal h4 with
            | some a, some b, some v3, some v4 =>
              if ((a * 16 + b) * 16 + v3) * 16 + v4 < 55296 then
                (decodeStr rest3).map fun p =>
                  (Char.ofNat (((a * 16 + b) * 16 + v3) * 16 + v4) :: p.1, p.2)
              else none
            | _, _, _, _ => none
          | _ => none
        else none
    else (decodeStr rest).map fun p => (c :: p.1, p.2)

/-- Parse a JSON string literal (opening quote included). -/
def parseStr (l : List Char) : Option (String × List Char) :=
  match l with
  | [] => none
  | c :: rest =>
    if c = '"' then (decodeStr rest).map fun p => (⟨p.1⟩, p.2) else none

/-- Is the head of `l` not a decimal digit (or `l` empty)? -/
def noDigHead : List Char → Bool
  | [] => true
  | c :: _ => !(isDig c)

/-- Parse a maximal run of decimal digits. -/
def parseNat (l : List Char) : Option (Nat × List Char) :=
  let ds := l.takeWhile isDig
  if ds.isEmpty then none
  else some (ds.foldl (fun a c => a * 10 + digVal c) 0, l.dropWhile isDig)

/-- Parse a JSON integer. -/
def parseInt (l : List Char) : Option (Int × List Char) :=
  match l with
  | [] => none
  | c :: rest =>
    if c = '-' then (parseNat rest).map fun p => (-(p.1 : Int), p.2)
    else (parseNat (c :: rest)).map fun p => ((p.1 : Int), p.2)

/-- Parse the `,"<name>":"<value>"` members for the given field names. -/
def parseFields : List String → List Char → Option (List String × List Char)
  | [], l => some ([], l)
  | name :: names, l =>
    (stripP (keyPre name) l).bind fun l1 =>
    (parseStr l1).bind fun p =>
    (parseFields names p.2).map fun q => (p.1 :: q.1, q.2)

/-- The string-valued keys of a serialized case, in emission order. -/
def caseFieldNames : List String :=
  ["caseNumber", "courtName", "caseType", "clientName", "opponentName",
   "hearingDate", "caseStatus", "notes", "createdAt"]

/-- Parse one serialized case object. -/
def parseObj (l : List Char) : Option (Case × List Char) :=
  (stripP objStart l).bind fun l1 =>
  (parseInt l1).bind fun pid =>
  (parseFields caseFieldNames pid.2).bind fun pf =>
  match pf.1 with
  | [cn, co, ct, cl, op, hd, cstat, no, ca] =>
    (stripP objEnd pf.2).map fun l11 =>
    ({ id := pid.1, caseNumber := cn, courtName := co, caseType := ct,
       clientName := cl, opponentName := op, hearingDate := hd,
       caseStatus := cstat, notes := no, createdAt := ca }, l11)
  | _ => none

/-- Parse the comma-separated case objects of a nonempty serialized array,
consuming the closing bracket; `fuel` bounds the recursion by the input
length. -/
def parseObjsFuel : Nat → List Char → Option (List Case × List Char)
  | 0, _ => none
  | fuel + 1, l =>
    (parseObj l).bind fun p =>
      match p.2 with
      | ',' :: r2 => (parseObjsFuel fuel r2).map fun q => (p.1 :: q.1, q.2)
      | ']' :: r2 => some ([p.1], r2)
      | _ => none

/-- `JSON.parse` on the collection format `JSON.stringify` emits. -/
def parseCases (s : String) : Option (List Case) :=
  match s.data with
  | '[' :: rest =>
    if rest = [']'] then some []
    else (parseObjsFuel rest.length rest).bind fun p =>
      if p.2 = [] then some p.1 else none
  | _ => none

/-- `saveCasesToStorage`: the storage value under the fixed key after a
successful `setItem` of `JSON.stringify(cases)`. -/
def saveCasesToStorage (cs : List Case) : Option String :=
  some (stringifyCases cs)

/-- `loadCasesFromStorage`: an absent or empty stored value is falsy and
leaves the initial empty collection; a stored string is `JSON.parse`d, a
failure being caught and leaving the initial empty collection. -/
def loadCasesFromStorage (storage : Option String) : List Case :=
  match storage with
  | none => []
  | some s => if s = "" then [] else (parseCases s).getD []

/-! ## Concrete sample data used by counterexamples and witnesses -/

/-- A concrete stored case. -/
def sampleCase : Case :=
  { id := 1000, caseNumber := "CV-1", courtName := "High Court", caseType := "Civil",
    clientName := "Asha", opponentName := "", hearingDate := "2024-05-10",
    caseStatus := "Pending", notes := "", createdAt := "2024-01-01T00:00:00.000Z" }

/-- A concrete valid form submission. -/
def sampleForm : FormData :=
  { caseNumber := "CV-2", courtName := "High Court", caseType := "Civil",
    clientName := "Ravi", opponentName := "", hearingDate := "2024-06-01",
    caseStatus := "Pending", notes := "" }

/-- A concrete stored case whose hearing date is 2024-01-31 and whose status
is Closed. -/
def jan31Case : Case :=
  { id := 7, caseNumber := "CV-7", courtName := "District Court", caseType := "Civil",
    clientName := "Meera", opponentName := "", hearingDate := "2024-01-31",
    caseStatus := "Closed", notes := "", createdAt := "2024-01-01T00:00:00.000Z" }

/-! ## Helper lemmas about `moveToNextHearing` -/

/-- Structure of a successful `moveToNextHearing`: the output has the same
length, matching-id positions hold the successfully advanced case, and all
other positions are untouched. -/
theorem moveToNextHearing_get (caseId : Int) :
    ∀ (cs out : List Case), moveToNextHearing caseId cs = some out →
      out.length = cs.length ∧
      ∀ i (hi : i < cs.length) (hj : i < out.length),
        if (cs.get ⟨i, hi⟩).id = caseId
        then advanceCase (cs.get ⟨i, hi⟩) = some (out.get ⟨i, hj⟩)
        else out.get ⟨i, hj⟩ = cs.get ⟨i, hi⟩ := by
  intro cs
  induction cs with
  | nil =>
    intro out h
    simp only [moveToNextHearing, Option.some.injEq] at h
    subst h
    exact ⟨rfl, fun i hi => absurd hi (by simp)⟩
  | cons c rest ih =>
    intro out h
    simp only [moveToNextHearing] at h
    split at h
    case isTrue hc =>
      cases ha : advanceCase c with
      | none => rw [ha] at h; simp at h
      | some c' =>
        rw [ha] at h
        cases hr : moveToNextHearing caseId rest with
        | none => rw [hr] at h; simp at h
        | some out' =>
          rw [hr] at h
          simp only [Option.some_bind, Option.map_some', Option.some.injEq] at h
          subst h
          obtain ⟨hl, hg⟩ := ih out' hr
          refine ⟨by simp [hl], ?_⟩
          intro i hi hj
          cases i with
          | zero => simpa [hc] using ha
          | succ n =>
            simpa using hg n (by simpa using hi) (by simpa using hj)
    case isFalse hc =>
      cases hr : moveToNextHearing caseId rest with
      | none => rw [hr] at h; simp at h
      | some out' =>
        rw [hr] at h
        simp only [Option.map_some', Option.some.injEq] at h
        subst h
        obtain ⟨hl, hg⟩ := ih out' hr
        refine ⟨by simp [hl], ?_⟩
        intro i hi hj
        cases i with
        | zero => simp [hc]
        | succ n =>
          simpa using hg n (by simpa using hi) (by simpa using hj)

/-- A successful `advanceCase` changes only `hearingDate` and `caseStatus`. -/
theorem advanceCase_fields {c c' : Case} (h : advanceCase c = some c') :
    c'.id = c.id ∧ c'.caseNumber = c.caseNumber ∧ c'.courtName = c.courtName ∧
    c'.caseType = c.caseType ∧ c'.clientName = c.clientName ∧
    c'.opponentName = c.opponentName ∧ c'.notes = c.notes ∧
    c'.createdAt = c.createdAt := by
  unfold advanceCase at h
  cases hp : parseIsoDate c.hearingDate with
  | none => rw [hp] at h; simp at h
  | some ymd =>
    rw [hp] at h
    simp only [Option.map_some', Option.some.injEq] at h
    subst h
    exact ⟨rfl, rfl, rfl, rfl, rfl, rfl, rfl, rfl⟩

/-- `advanceCase` on a hearing date of 2024-01-31: JS `setMonth` day-overflow
rollover lands on 2024-03-02 (2024 is a leap year), and the status is forced
to Adjourned. -/
theorem advanceCase_jan31 (c : Case) (h : c.hearingDate = "2024-01-31") :
    advanceCase c =
      some { c with hearingDate := "2024-03-02", caseStatus := "Adjourned" } := by
  unfold advanceCase
  rw [h]
  have h1 : parseIsoDate "2024-01-31" = some (2024, 1, 31) := by decide
  rw [h1]
  simp only [Option.map_some', Option.some.injEq]
  have h2 : formatDate (daysFromCivil ((2024 : Int) + (((1 : Int) - 1) + 1).fdiv 12)
      ((((1 : Int) - 1) + 1) % 12 + 1) 1 + ((31 : Int) - 1)) = "2024-03-02" := by decide
  rw [Case.mk.injEq]
  exact ⟨rfl, rfl, rfl, rfl, rfl, rfl, h2, rfl, rfl, rfl⟩

/-! ## Claim theorems -/

/-- C1: for every case in the store with hearingDate "2024-01-31",
`advanceHearing` on its id rewrites that case's hearing date to "2024-03-02"
(a member of the allowed set, produced by the single deterministic JS
day-overflow rollover rule applied on every call) and forces `caseStatus` to
"Adjourned" regardless of the prior status. -/
theorem c1_jan31_advances_to_mar02 (cs out : List Case) (caseId : Int) (i : Nat)
    (hi : i < cs.length)
    (hdate : (cs.get ⟨i, hi⟩).hearingDate = "2024-01-31")
    (hid : (cs.get ⟨i, hi⟩).id = caseId)
    (hout : moveToNextHearing caseId cs = some out) :
    ∃ hj : i < out.length,
      out.get ⟨i, hj⟩ =
        { cs.get ⟨i, hi⟩ with hearingDate := "2024-03-02", caseStatus := "Adjourned" } ∧
      "2024-03-02" ∈ ["2024-02-28", "2024-02-29", "2024-03-02", "2024-03-03"] := by
  obtain ⟨hl, hg⟩ := moveToNextHearing_get caseId cs out hout
  have hj : i < out.length := hl ▸ hi
  refine ⟨hj, ?_, by simp⟩
  have hcase := hg i hi hj
  rw [if_pos hid] at hcase
  rw [advanceCase_jan31 _ hdate, Option.some.injEq] at hcase
  exact hcase.symm

/-- What `jan31Case` becomes after `moveToNextHearing`. -/
def jan31Advanced : Case :=
  { jan31Case with hearingDate := "2024-03-02", caseStatus := "Adjourned" }

/-- C1 witness: a one-case store holding `jan31Case` (status Closed). -/
theorem c1_jan31_advances_to_mar02_witness :
    ∃ hj : 0 < ([jan31Advanced] : List Case).length,
      ([jan31Advanced] : List Case).get ⟨0, hj⟩ = jan31Advanced ∧
      "2024-03-02" ∈ ["2024-02-28", "2024-02-29", "2024-03-02", "2024-03-03"] :=
  c1_jan31_advances_to_mar02 [jan31Case] [jan31Advanced] 7 0 (by decide) (by decide)
    (by decide) (by decide)

/-- C2 counterexample: a valid submission at clock value 1000 into a store
already holding a case with id 1000 succeeds and assigns the duplicate id
1000, refuting the unconditional uniqueness claim. -/
theorem c2_id_collision_counterexample :
    (handleSubmit sampleForm [sampleCase] 1000 "t").2 = true ∧
    (handleSubmit sampleForm [sampleCase] 1000 "t").1 =
      [sampleCase, newCaseFrom sampleForm 1000 "t"] ∧
    (newCaseFrom sampleForm 1000 "t").id ∈ ([sampleCase].map Case.id) := by
  decide

/-- C2 amended: when the four required fields are non-empty and the current
clock millisecond `Date.now()` differs from every id already in the
collection, the created case is appended and its id collides with no existing
id.  (The code's `id = Date.now()` offers no other protection: two valid
submissions within one millisecond, or a stored id equal to the current
time, produce a duplicate.) -/
theorem c2_unique_id_when_clock_fresh (f : FormData) (cs : List Case)
    (nowMs : Int) (nowIso : String)
    (hval : f.caseNumber ≠ "" ∧ f.courtName ≠ "" ∧ f.clientName ≠ "" ∧
      f.hearingDate ≠ "")
    (hfresh : nowMs ∉ cs.map Case.id) :
    (handleSubmit f cs nowMs nowIso).1 = cs ++ [newCaseFrom f nowMs nowIso] ∧
    (newCaseFrom f nowMs nowIso).id ∉ cs.map Case.id := by
  obtain ⟨h1, h2, h3, h4⟩ := hval
  have hm : requiredMissing f = false := by
    simp only [requiredMissing, Bool.or_eq_false_iff, beq_eq_false_iff_ne, ne_eq]
    exact ⟨⟨⟨h1, h2⟩, h3⟩, h4⟩
  exact ⟨by simp [handleSubmit, hm], by simpa [newCaseFrom] using hfresh⟩

/-- C2 amended witness: same store, clock value 2000 (fresh). -/
theorem c2_unique_id_when_clock_fresh_witness :
    (handleSubmit sampleForm [sampleCase] 2000 "t").1 =
      [sampleCase] ++ [newCaseFrom sampleForm 2000 "t"] ∧
    (newCaseFrom sampleForm 2000 "t").id ∉ [sampleCase].map Case.id :=
  c2_unique_id_when_clock_fresh sampleForm [sampleCase] 2000 "t"
    ⟨by decide, by decide, by decide, by decide⟩ (by decide)

/-- C4: a submission with any required field empty reports the validation
failure (second component `false`) and leaves the collection exactly as it
was. -/
theorem c4_validation_blocks_mutation (f : FormData) (cs : List Case)
    (nowMs : Int) (nowIso : String)
    (h : f.caseNumber = "" ∨ f.courtName = "" ∨ f.clientName = "" ∨
      f.hearingDate = "") :
    handleSubmit f cs nowMs nowIso = (cs, false) := by
  have hm : requiredMissing f = true := by
    simp only [requiredMissing, Bool.or_eq_true, beq_iff_eq]
    tauto
  simp [handleSubmit, hm]

/-- C4 witness: empty case number. -/
theorem c4_validation_blocks_mutation_witness :
    handleSubmit { sampleForm with caseNumber := "" } [sampleCase] 5 "t" =
      ([sampleCase], false) :=
  c4_validation_blocks_mutation _ _ _ _ (Or.inl rfl)

/-- C8: `advanceHearing` on an id matching no case maps every element to
itself: the collection is returned unchanged (same length, same elements,
same order) and no error is raised. -/
theorem c8_unknown_id_is_noop (caseId : Int) (cs : List Case)
    (h : ∀ c ∈ cs, c.id ≠ caseId) :
    moveToNextHearing caseId cs = some cs := by
  induction cs with
  | nil => rfl
  | cons c rest ih =>
    have hc : c.id ≠ caseId := h c (by simp)
    rw [moveToNextHearing, if_neg hc, ih fun x hx => h x (by simp [hx])]
    rfl

/-- C8 witness: id 99 matches nothing in a one-case store. -/
theorem c8_unknown_id_is_noop_witness :
    moveToNextHearing 99 [sampleCase] = some [sampleCase] :=
  c8_unknown_id_is_noop 99 [sampleCase] (by decide)

/-- C9: the delete operation keeps, in their original relative order and with
all field values untouched (sublist of the original), exactly the cases whose
id differs from the deleted id. -/
theorem c9_delete_removes_exactly_id (caseId : Int) (cs : List Case) :
    (deleteCase true caseId cs).Sublist cs ∧
    ∀ c, c ∈ deleteCase true caseId cs ↔ c ∈ cs ∧ c.id ≠ caseId := by
  constructor
  · show (cs.filter fun c => c.id != caseId).Sublist cs
    exact List.filter_sublist cs
  · intro c
    simp [deleteCase, List.mem_filter]

/-- C10: a successful `advanceHearing` preserves length and order; at every
position the id, caseNumber, courtName, caseType, clientName, opponentName,
notes and createdAt are unchanged, and positions whose id differs from the
target are entirely unchanged. -/
theorem c10_advance_frame (caseId : Int) (cs out : List Case)
    (h : moveToNextHearing caseId cs = some out) :
    out.length = cs.length ∧
    ∀ i (hi : i < cs.length) (hj : i < out.length),
      ((out.get ⟨i, hj⟩).id = (cs.get ⟨i, hi⟩).id ∧
       (out.get ⟨i, hj⟩).caseNumber = (cs.get ⟨i, hi⟩).caseNumber ∧
       (out.get ⟨i, hj⟩).courtName = (cs.get ⟨i, hi⟩).courtName ∧
       (out.get ⟨i, hj⟩).caseType = (cs.get ⟨i, hi⟩).caseType ∧
       (out.get ⟨i, hj⟩).clientName = (cs.get ⟨i, hi⟩).clientName ∧
       (out.get ⟨i, hj⟩).opponentName = (cs.get ⟨i, hi⟩).opponentName ∧
       (out.get ⟨i, hj⟩).notes = (cs.get ⟨i, hi⟩).notes ∧
       (out.get ⟨i, hj⟩).createdAt = (cs.get ⟨i, hi⟩).createdAt) ∧
      ((cs.get ⟨i, hi⟩).id ≠ caseId → out.get ⟨i, hj⟩ = cs.get ⟨i, hi⟩) := by
  obtain ⟨hl, hg⟩ := moveToNextHearing_get caseId cs out h
  refine ⟨hl, ?_⟩
  intro i hi hj
  have hcase := hg i hi hj
  by_cases hc : (cs.get ⟨i, hi⟩).id = caseId
  · rw [if_pos hc] at hcase
    obtain ⟨f1, f2, f3, f4, f5, f6, f7, f8⟩ := advanceCase_fields hcase
    exact ⟨⟨f1, f2, f3, f4, f5, f6, f7, f8⟩, fun hne => absurd hc hne⟩
  · rw [if_neg hc] at hcase
    exact ⟨by rw [hcase]; exact ⟨rfl, rfl, rfl, rfl, rfl, rfl, rfl, rfl⟩,
      fun _ => hcase⟩

/-! ## Stability of the upcoming-hearings sort -/

/-- Inserting `a` leaves the subsequence of any fixed hearing-date key
unchanged except for prepending `a` when `a` has that key: the elements
skipped by `orderedInsert` all have strictly smaller keys. -/
theorem filter_orderedInsert_key (k : Int) (a : Case) (l : List Case) :
    (List.orderedInsert byDate a l).filter (fun c => hearingKey c == k) =
      if hearingKey a = k
      then a :: l.filter (fun c => hearingKey c == k)
      else l.filter (fun c => hearingKey c == k) := by
  induction l with
  | nil =>
    by_cases hk : hearingKey a = k <;> simp [List.orderedInsert, hk]
  | cons b l ih =>
    by_cases hab : byDate a b
    · rw [List.orderedInsert_of_le _ _ hab]
      by_cases hk : hearingKey a = k <;> simp [List.filter_cons, hk]
    · have hba : hearingKey b < hearingKey a := lt_of_not_le hab
      rw [List.orderedInsert, if_neg hab]
      by_cases hk : hearingKey a = k
      · have hbk : ¬ hearingKey b = k := by
          intro hb; exact absurd (hk ▸ hb ▸ hba) (lt_irrefl _)
        simp [List.filter_cons, hbk, ih, hk]
      · by_cases hbk : hearingKey b = k <;> simp [List.filter_cons, hbk, ih, hk]

/-- The insertion sort used by `getUpcomingHearings` is stable: for every
hearing-date key, the subsequence of cases with that key is unchanged. -/
theorem filter_insertionSortByDate_key (k : Int) (l : List Case) :
    (List.insertionSort byDate l).filter (fun c => hearingKey c == k) =
      l.filter (fun c => hearingKey c == k) := by
  induction l with
  | nil => rfl
  | cons a l ih =>
    rw [List.insertionSort, filter_orderedInsert_key]
    by_cases hk : hearingKey a = k <;> simp [List.filter_cons, hk, ih]

/-- Unfolding of the filter predicate of `getUpcomingHearings`. -/
theorem keepUpcoming_eq_true {t : Int} {c : Case} :
    keepUpcoming t c = true ↔
      ∃ h, hearingDay c.hearingDate = some h ∧ t ≤ h := by
  unfold keepUpcoming
  cases hd : hearingDay c.hearingDate <;> simp

/-- C3: `getUpcomingHearings` returns a permutation of the cases whose
hearing date (midnight) is on or after today (midnight) — cases dated today
included, strictly past ones excluded, invalid dates excluded by the `NaN`
comparison — sorted ascending by hearing date; for every date key the
subsequence with that key keeps the store's relative order (stable sort). -/
theorem c3_upcoming_keeps_future_sorted_stable (nowMs : Int) (cs : List Case) :
    (getUpcomingHearings nowMs cs).Perm
      (cs.filter (keepUpcoming (nowMs.fdiv msPerDay))) ∧
    List.Sorted byDate (getUpcomingHearings nowMs cs) ∧
    (∀ c, c ∈ getUpcomingHearings nowMs cs ↔
      c ∈ cs ∧ ∃ h, hearingDay c.hearingDate = some h ∧ nowMs.fdiv msPerDay ≤ h) ∧
    ∀ k : Int,
      (getUpcomingHearings nowMs cs).filter (fun c => hearingKey c == k) =
        (cs.filter (keepUpcoming (nowMs.fdiv msPerDay))).filter
          (fun c => hearingKey c == k) := by
  refine ⟨List.perm_insertionSort byDate _, List.sorted_insertionSort byDate _,
    ?_, fun k => filter_insertionSortByDate_key k _⟩
  intro c
  rw [getUpcomingHearings,
    (List.perm_insertionSort byDate _).mem_iff, List.mem_filter,
    keepUpcoming_eq_true]

/-- C5 helper: the ceiling division the code performs on an exact number of
days is exact. -/
theorem ceilDiv_mul_msPerDay (k : Int) : ceilDiv (k * msPerDay) msPerDay = k := by
  unfold ceilDiv
  rw [← Int.neg_mul, Int.mul_fdiv_cancel _ (by norm_num [msPerDay]), neg_neg]

/-- C5: `isWithin7Days` is true exactly when the integer day difference
(the code's `Math.ceil` of the millisecond delta over one day, which is exact
here since both instants are midnights) between the hearing date and today
lies in `[0, 7]`; hence true for today and today+7, false for today+8 and
yesterday. -/
theorem c5_urgent_iff_within_0_7 (s : String) (nowMs h : Int)
    (hs : hearingDay s = some h) :
    isWithin7Days s nowMs = true ↔
      0 ≤ h - nowMs.fdiv msPerDay ∧ h - nowMs.fdiv msPerDay ≤ 7 := by
  unfold isWithin7Days
  rw [hs]
  have hdiff : h * msPerDay - nowMs.fdiv msPerDay * msPerDay
      = (h - nowMs.fdiv msPerDay) * msPerDay := by ring
  simp only [hdiff, ceilDiv_mul_msPerDay, Bool.and_eq_true, decide_eq_true_eq]

/-- C5 witness: today 2024-06-10 (noon), hearing 2024-06-17 (today+7):
urgent. -/
theorem c5_urgent_iff_within_0_7_witness :
    isWithin7Days "2024-06-17" (19884 * msPerDay + 43200000) = true :=
  (c5_urgent_iff_within_0_7 "2024-06-17" (19884 * msPerDay + 43200000) 19891
    (by decide)).mpr (by decide)

/-- C6: membership in `getFilteredCases` is exactly the conjunction of the
three predicates; an empty search term, court filter or type filter matches
every case, the search term matches case-insensitively as a substring of
caseNumber or clientName, and the court and type filters match exactly. -/
theorem c6_filter_conjunction (searchTerm filterCourt filterCaseType : String)
    (cs : List Case) (c : Case) :
    c ∈ getFilteredCases searchTerm filterCourt filterCaseType cs ↔
      c ∈ cs ∧
      (searchTerm = "" ∨
        containsStr c.caseNumber.toLower searchTerm.toLower = true ∨
        containsStr c.clientName.toLower searchTerm.toLower = true) ∧
      (filterCourt = "" ∨ c.courtName = filterCourt) ∧
      (filterCaseType = "" ∨ c.caseType = filterCaseType) := by
  rw [getFilteredCases, List.mem_filter]
  unfold matchesFilters
  simp only [Bool.and_eq_true, Bool.or_eq_true, beq_iff_eq, and_assoc, or_assoc]

/-- C10 witness: advancing `jan31Case` in a two-case store. -/
theorem c10_advance_frame_witness :
    ([jan31Advanced, sampleCase] : List Case).length =
      ([jan31Case, sampleCase] : List Case).length :=
  (c10_advance_frame 7 [jan31Case, sampleCase] [jan31Advanced, sampleCase]
    (by decide)).1

/-! ## The save/load round trip -/

/-- Stripping a prefix that is literally there succeeds with the rest. -/
theorem stripP_append : ∀ (p r : List Char), stripP p (p ++ r) = some r := by
  intro p
  induction p with
  | nil => intro r; rfl
  | cons a p ih => intro r; simp [stripP, ih]

/-- `hexVal` inverts `hexDigitChar` on 0–15. -/
theorem hexVal_hexDigitChar : ∀ n < 16, hexVal (hexDigitChar n) = some n := by
  decide

/-- `isDig` holds of every decimal digit character. -/
theorem digitChar_isDig : ∀ d < 10, isDig (digitChar d) = true := by decide

/-- `digVal` inverts `digitChar` on 0–9. -/
theorem digVal_digitChar : ∀ d < 10, digVal (digitChar d) = d := by decide

/-- Unfolding of `decodeStr` on a `\uXXXX` escape with valid hex digits. -/
theorem decodeStr_u {h1 h2 h3 h4 : Char} {a b v3 v4 : Nat} (tail : List Char)
    (e1 : hexVal h1 = some a) (e2 : hexVal h2 = some b)
    (e3 : hexVal h3 = some v3) (e4 : hexVal h4 = some v4)
    (hn : ((a * 16 + b) * 16 + v3) * 16 + v4 < 55296) :
    decodeStr ('\\' :: 'u' :: h1 :: h2 :: h3 :: h4 :: tail) =
      (decodeStr tail).map fun p =>
        (Char.ofNat (((a * 16 + b) * 16 + v3) * 16 + v4) :: p.1, p.2) := by
  simp [decodeStr, e1, e2, e3, e4, hn]

/-- Decoding inverts the escaping of a single character. -/
theorem decode_escapeChar (c : Char) (tail : List Char) :
    decodeStr (escapeChar c ++ tail) =
      (decodeStr tail).map fun p => (c :: p.1, p.2) := by
  rw [escapeChar]
  split_ifs with hq hb ht hn hf hr hu hc
  · subst hq; rw [List.cons_append, List.cons_append, List.nil_append,
      decodeStr.eq_def]; simp
  · subst hb; rw [List.cons_append, List.cons_append, List.nil_append,
      decodeStr.eq_def]; simp
  · subst ht; rw [List.cons_append, List.cons_append, List.nil_append,
      decodeStr.eq_def]; simp
  · subst hn; rw [List.cons_append, List.cons_append, List.nil_append,
      decodeStr.eq_def]; simp
  · subst hf; rw [List.cons_append, List.cons_append, List.nil_append,
      decodeStr.eq_def]; simp
  · subst hr; rw [List.cons_append, List.cons_append, List.nil_append,
      decodeStr.eq_def]; simp
  · subst hu; rw [List.cons_append, List.cons_append, List.nil_append,
      decodeStr.eq_def]; simp
  · have hhi : hexVal (hexDigitChar (c.toNat / 16)) = some (c.toNat / 16) :=
      hexVal_hexDigitChar _ (by omega)
    have hlo : hexVal (hexDigitChar (c.toNat % 16)) = some (c.toNat % 16) :=
      hexVal_hexDigitChar _ (Nat.mod_lt _ (by norm_num))
    have h0 : hexVal '0' = some 0 := by decide
    have hval : ((0 * 16 + 0) * 16 + c.toNat / 16) * 16 + c.toNat % 16 = c.toNat := by
      omega
    simp only [List.cons_append, List.nil_append]
    rw [decodeStr_u tail h0 h0 hhi hlo (by omega)]
    simp only [hval, Char.ofNat_toNat]
  · simp only [List.cons_append, List.nil_append]
    rw [decodeStr.eq_def]
    simp [hq, hb]

/-- Decoding inverts the escaping of a whole string body up to the closing
quote. -/
theorem decodeStr_escapeL : ∀ (cs r : List Char),
    decodeStr (escapeL cs ++ ('"' :: r)) = some (cs, r) := by
  intro cs
  induction cs with
  | nil => intro r; simp [escapeL, decodeStr.eq_def]
  | cons c t ih =>
    intro r
    simp [escapeL, List.append_assoc, decode_escapeChar, ih]

/-- Parsing inverts the serialization of a JSON string literal. -/
theorem parseStr_enc (s : String) (r : List Char) :
    parseStr (encStr s ++ r) = some (s, r) := by
  cases s with
  | mk cs =>
    show parseStr ('"' :: ((escapeL cs ++ ['"']) ++ r)) = _
    rw [parseStr, if_pos rfl, List.append_assoc, List.singleton_append,
      decodeStr_escapeL]
    rfl

/-- `takeWhile`/`dropWhile` split an all-digit prefix followed by a
non-digit head. -/
theorem takeWhile_isDig_append : ∀ (l r : List Char),
    (∀ c ∈ l, isDig c = true) → noDigHead r = true →
    (l ++ r).takeWhile isDig = l ∧ (l ++ r).dropWhile isDig = r := by
  intro l
  induction l with
  | nil =>
    intro r _ hr
    cases r with
    | nil => exact ⟨rfl, rfl⟩
    | cons c t =>
      have hc : isDig c = false := by
        simpa [noDigHead] using hr
      simp [List.takeWhile_cons, List.dropWhile_cons, hc]
  | cons a l ih =>
    intro r hl hr
    have ha : isDig a = true := hl a (by simp)
    obtain ⟨h1, h2⟩ := ih r (fun c hc => hl c (by simp [hc])) hr
    simp [List.takeWhile_cons, List.dropWhile_cons, ha, h1, h2]

/-- Folding the digit characters of `L.reverse` (most significant first)
recomputes the number. -/
theorem foldl_digitChars : ∀ (L : List Nat), (∀ d ∈ L, d < 10) → ∀ (a : Nat),
    (L.reverse.map digitChar).foldl (fun acc c => acc * 10 + digVal c) a
      = a * 10 ^ L.length + Nat.ofDigits 10 L := by
  intro L
  induction L with
  | nil => intro _ a; simp [Nat.ofDigits]
  | cons d T ih =>
    intro hL a
    have hd : digVal (digitChar d) = d := digVal_digitChar d (hL d (by simp))
    have hT : ∀ x ∈ T, x < 10 := fun x hx => hL x (by simp [hx])
    simp only [List.reverse_cons, List.map_append, List.map_cons, List.map_nil,
      List.foldl_append, List.foldl_cons, List.foldl_nil]
    rw [ih hT a, hd, Nat.ofDigits_cons, List.length_cons]
    ring

/-- The serialized digits of a natural number are nonempty. -/
theorem encNat_ne_nil (n : Nat) : encNat n ≠ [] := by
  unfold encNat
  split
  · simp
  · intro h
    have hlen := congrArg List.length h
    simp only [List.length_map, List.length_reverse, List.length_nil] at hlen
    exact absurd (List.length_eq_zero.mp hlen)
      (Nat.digits_ne_nil_iff_ne_zero.mpr (by assumption))

/-- Every character of a serialized natural number is a digit. -/
theorem encNat_all_digits (n : Nat) : ∀ c ∈ encNat n, isDig c = true := by
  unfold encNat
  split
  · intro c hc
    simp only [List.mem_singleton] at hc
    subst hc
    decide
  · intro c hc
    simp only [List.mem_map, List.mem_reverse] at hc
    obtain ⟨d, hd, rfl⟩ := hc
    exact digitChar_isDig d (Nat.digits_lt_base (by norm_num) hd)

/-- Folding the serialized digits of `n` recomputes `n`. -/
theorem encNat_foldl (n : Nat) :
    (encNat n).foldl (fun a c => a * 10 + digVal c) 0 = n := by
  unfold encNat
  split
  case isTrue h =>
    subst h
    decide
  case isFalse h =>
    rw [foldl_digitChars (Nat.digits 10 n)
      (fun d hd => Nat.digits_lt_base (by norm_num) hd) 0]
    simp [Nat.ofDigits_digits]

/-- Parsing inverts the serialization of a natural number when no digit
follows. -/
theorem parseNat_enc (n : Nat) (r : List Char) (hr : noDigHead r = true) :
    parseNat (encNat n ++ r) = some (n, r) := by
  obtain ⟨ht, hd⟩ := takeWhile_isDig_append (encNat n) r (encNat_all_digits n) hr
  have hne : (encNat n).isEmpty = false := by
    cases h : encNat n with
    | nil => exact absurd h (encNat_ne_nil n)
    | cons a t => rfl
  simp only [parseNat, ht, hd, hne, Bool.false_eq_true, if_false, encNat_foldl]

/-- Parsing inverts the serialization of an integer when no digit follows. -/
theorem parseInt_enc (i : Int) (r : List Char) (hr : noDigHead r = true) :
    parseInt (encInt i ++ r) = some (i, r) := by
  unfold encInt
  split
  case isTrue hi =>
    rw [List.cons_append, parseInt, if_pos rfl, parseNat_enc _ _ hr]
    simp only [Option.map_some', Option.some.injEq, Prod.mk.injEq, and_true]
    omega
  case isFalse hi =>
    obtain ⟨c, cs, hcons⟩ : ∃ c cs, encNat i.toNat = c :: cs := by
      cases h : encNat i.toNat with
      | nil => exact absurd h (encNat_ne_nil _)
      | cons c cs => exact ⟨c, cs, rfl⟩
    have hcd : isDig c = true :=
      encNat_all_digits i.toNat c (by rw [hcons]; simp)
    have hcne : c ≠ '-' := by
      intro h
      subst h
      exact absurd hcd (by decide)
    rw [hcons, List.cons_append, parseInt, if_neg hcne, ← List.cons_append,
      ← hcons, parseNat_enc _ _ hr]
    simp only [Option.map_some', Option.some.injEq, Prod.mk.injEq, and_true]
    omega

/-- `parseInt` on a serialized id followed by a key prefix. -/
theorem parseInt_keyPre (i : Int) (name : String) (r : List Char) :
    parseInt (encInt i ++ (keyPre name ++ r)) = some (i, keyPre name ++ r) :=
  parseInt_enc i _ rfl

/-- `parseFields` with no names left consumes nothing. -/
theorem parseFields_nil (l : List Char) : parseFields [] l = some ([], l) := rfl

/-- One step of `parseFields` on serialized input. -/
theorem parseFields_cons (name : String) (names : List String) (v : String)
    (r : List Char) :
    parseFields (name :: names) (keyPre name ++ (encStr v ++ r)) =
      (parseFields names r).map fun q => (v :: q.1, q.2) := by
  rw [parseFields, stripP_append, Option.some_bind, parseStr_enc,
    Option.some_bind]

/-- Parsing inverts the serialization of one case object. -/
theorem parseObj_enc (c : Case) (r : List Char) :
    parseObj (encObj c ++ r) = some (c, r) := by
  rw [parseObj, encObj]
  simp only [List.append_assoc, stripP_append, Option.some_bind, caseFieldNames,
    parseInt_keyPre, parseFields_cons, parseFields_nil, Option.map_some',
    Option.some_bind]

/-- Parsing inverts the serialization of a nonempty case sequence, given
enough fuel. -/
theorem parseObjsFuel_enc : ∀ (t : List Case) (c : Case) (fuel : Nat),
    t.length < fuel →
    parseObjsFuel fuel (encItems (c :: t)) = some (c :: t, []) := by
  intro t
  induction t with
  | nil =>
    intro c fuel hf
    cases fuel with
    | zero => exact absurd hf (by simp)
    | succ f =>
      show parseObjsFuel (f + 1) (encObj c ++ [']']) = _
      rw [parseObjsFuel, parseObj_enc]
      rfl
  | cons c2 t2 ih =>
    intro c fuel hf
    cases fuel with
    | zero => exact absurd hf (by simp)
    | succ f =>
      have hf2 : t2.length < f := by
        simp only [List.length_cons] at hf
        omega
      show parseObjsFuel (f + 1) (encObj c ++ (',' :: encItems (c2 :: t2))) = _
      rw [parseObjsFuel, parseObj_enc]
      show ((parseObjsFuel f (encItems (c2 :: t2))).map fun q => (c :: q.1, q.2))
        = some (c :: c2 :: t2, [])
      rw [ih c2 f hf2]
      rfl

/-- A serialized case object has at least seven characters. -/
theorem seven_le_encObj_length (c : Case) : 7 ≤ (encObj c).length := by
  simp only [encObj, objStart, objEnd, List.append_assoc, List.length_append,
    List.length_cons, List.length_nil]
  omega

/-- The serialized items are at least as long as the case list. -/
theorem length_le_encItems : ∀ (cs : List Case), cs.length ≤ (encItems cs).length := by
  intro cs
  induction cs with
  | nil => simp [encItems]
  | cons c t ih =>
    cases t with
    | nil =>
      have h7 := seven_le_encObj_length c
      simp only [encItems, List.length_append, List.length_cons, List.length_nil]
      omega
    | cons c2 t2 =>
      have h7 := seven_le_encObj_length c
      simp only [encItems, List.length_append, List.length_cons] at ih ⊢
      omega

/-- The serialized items of a nonempty list are not the bare `]`. -/
theorem encItems_cons_ne (c : Case) (t : List Case) : encItems (c :: t) ≠ [']'] := by
  intro h
  have hlen := congrArg List.length h
  have h7 := seven_le_encObj_length c
  cases t <;>
    simp only [encItems, List.length_append, List.length_cons, List.length_nil]
      at hlen <;>
    omega

/-- Parsing inverts serialization of the whole collection. -/
theorem parseCases_stringify (cs : List Case) :
    parseCases (stringifyCases cs) = some cs := by
  cases cs with
  | nil => rfl
  | cons c t =>
    show (if encItems (c :: t) = [']'] then some []
      else (parseObjsFuel (encItems (c :: t)).length (encItems (c :: t))).bind
        fun p => if p.2 = [] then some p.1 else none) = some (c :: t)
    rw [if_neg (encItems_cons_ne c t)]
    have hf : t.length < (encItems (c :: t)).length := by
      have := length_le_encItems (c :: t)
      simp only [List.length_cons] at this
      omega
    rw [parseObjsFuel_enc t c _ hf]
    rfl

/-- C7: saving the collection and loading it back yields a collection equal
field-for-field to the original, in the same order. -/
theorem c7_save_load_roundtrip (cs : List Case) :
    loadCasesFromStorage (saveCasesToStorage cs) = cs := by
  show (if stringifyCases cs = "" then []
    else (parseCases (stringifyCases cs)).getD []) = cs
  have hne : stringifyCases cs ≠ "" := by
    intro h
    have := congrArg String.data h
    simp [stringifyCases] at this
  rw [if_neg hne, parseCases_stringify]
  rfl

end Court
